import Mathlib

/-!
# Verification of `DoublyLinkedListSerializer.cpp`

Shallow embedding of the doubly-linked-list serializer.  The C++ heap is
modelled as an arena `nodes : List ListNode`; a `ListNode*` pointer is the
index of the node in that arena (`Option Nat`, `none` = `nullptr`).  This is
faithful because the `List` class exclusively owns its nodes, node addresses
are stable while a node is alive, and freed nodes are never observable.

Machine integers:
* the binary format's fields are exact 32-bit values: `u32LE`/`i32LE` encode
  modulo `2^32` (two's complement for the signed field), matching `fwrite` of
  `uint32_t`/`int32_t` on a little-endian target;
* `static_cast<uint32_t>(...)` casts are modelled with an explicit `% 2^32`;
* the in-memory field `int count` is an `Int` whose assignments follow the
  source's 32-bit semantics: `count = static_cast<int>(newCount)` in
  `Deserialize` wraps modulo `2^32` into `[-2^31, 2^31)` (`i32ofU32`, the
  two's-complement reading of the 32-bit pattern), while `count++` in
  `AddNode` is an exact increment (signed overflow is undefined behaviour in
  the source language, so defined executions never exceed `2^31 - 1`).
-/

/-- Little-endian 4-byte encoding of a 32-bit unsigned value (the bytes
`fwrite(&v, 4, 1, f)` emits for `uint32_t v` on a little-endian target).
Only `n % 2^32` is relevant. -/
def u32LE (n : Nat) : List Nat :=
  [n % 256, n / 256 % 256, n / 65536 % 256, n / 16777216 % 256]

/-- Reassemble a 32-bit unsigned value from four little-endian bytes
(the value `fread(&v, 4, 1, f)` stores into `uint32_t v`). -/
def leU32 (b0 b1 b2 b3 : Nat) : Nat :=
  b0 % 256 + 256 * (b1 % 256) + 65536 * (b2 % 256) + 16777216 * (b3 % 256)

/-- Interpret a 32-bit unsigned value as a two's-complement `int32_t`. -/
def i32ofU32 (n : Nat) : Int :=
  if n % 4294967296 < 2147483648 then ((n % 4294967296 : Nat) : Int)
  else ((n % 4294967296 : Nat) : Int) - 4294967296

/-- Little-endian 4-byte encoding of an `int32_t` (two's complement). -/
def i32LE (i : Int) : List Nat :=
  u32LE (i.emod 4294967296).toNat

/-- A list node: `data` is the byte string `std::string data`, and the three
pointers `prev`/`next`/`rand` are arena indices (`none` = `nullptr`). -/
structure ListNode where
  prev : Option Nat := none
  next : Option Nat := none
  rand : Option Nat := none
  data : List Nat := []
deriving Repr, DecidableEq

/-- The `List` class: the arena of live nodes plus the three fields
`head`, `tail` (arena indices) and `int count`. -/
structure LList where
  nodes : List ListNode := []
  head : Option Nat := none
  tail : Option Nat := none
  count : Int := 0
deriving Repr, DecidableEq

/-- A freshly constructed `List` object (all fields at their initialisers). -/
def LList.empty : LList := {}

/-- Update the node at arena index `i` (no-op when out of range, which never
happens for the dereferences the source performs on live pointers). -/
def setNode (ns : List ListNode) (i : Nat) (f : ListNode → ListNode) :
    List ListNode :=
  ns.set i (f (ns.getD i {}))

/-- Read the node at arena index `i` (a pointer dereference). -/
def LList.nodeAt (s : LList) (i : Nat) : ListNode :=
  s.nodes.getD i {}

/-- `List::AddNode`: allocate a node carrying `data` and link it after the
current tail.  The branch `head ≠ null, tail = null` dereferences a null
`tail` in the source (impossible for well-formed lists); we return the state
unchanged there. -/
def LList.AddNode (s : LList) (data : List Nat) : LList :=
  let newId := s.nodes.length
  match s.head, s.tail with
  | none, _ =>
      { s with nodes := s.nodes ++ [{ data := data }],
               head := some newId, tail := some newId,
               count := s.count + 1 }
  | some _, some t =>
      { s with nodes := setNode s.nodes t (fun nd => { nd with next := some newId })
                          ++ [{ prev := some t, data := data }],
               tail := some newId,
               count := s.count + 1 }
  | some _, none => s

/-- Follow `node = node->next` a given number of times starting from `start`
(the pointer walks in `List::SetRand`).  `none` models reaching `nullptr`:
one further step in the source would dereference it. -/
def LList.walk (s : LList) : Option Nat → Nat → Option Nat
  | start, 0 => start
  | none, _ + 1 => none
  | some i, k + 1 => s.walk (s.nodeAt i).next k

/-- `List::SetRand`: bounds-check both indices, walk to the two nodes,
set `node->rand = randNode`. -/
def LList.SetRand (s : LList) (nodeIndex randIndex : Int) : LList :=
  if nodeIndex < 0 ∨ nodeIndex ≥ s.count ∨ randIndex < 0 ∨ randIndex ≥ s.count then
    s
  else
    match s.walk s.head nodeIndex.toNat, s.walk s.head randIndex.toNat with
    | some nid, some rid =>
        { s with nodes := setNode s.nodes nid (fun nd => { nd with rand := some rid }) }
    | _, _ => s

/-- `List::GetCount`. -/
def LList.GetCount (s : LList) : Int := s.count

/-- `List::Clear`: every node of the chain is freed; all fields reset. -/
def LList.Clear (_s : LList) : LList :=
  { nodes := [], head := none, tail := none, count := 0 }

/-- The traversal `while (node) { nodes.push_back(node); node = node->next; }`
from `List::Serialize`, with fuel `s.nodes.length` (enough for every chain of
distinct live nodes; on a cyclic chain the source would not terminate). -/
def LList.chainFrom (s : LList) : Option Nat → Nat → List Nat
  | none, _ => []
  | some _, 0 => []
  | some i, fuel + 1 => i :: s.chainFrom (s.nodeAt i).next fuel

/-- The vector `nodes` built by `List::Serialize`: arena indices of the chain
in head-to-tail order. -/
def LList.traversal (s : LList) : List Nat :=
  s.chainFrom s.head s.nodes.length

/-- The map `nodeToIndex` of `List::Serialize`, looked up at pointer `id`:
position of `id` in the traversal.  A missing key yields `0`, as
`std::unordered_map::operator[]` value-initialises absent entries. -/
def nodeToIndex : List Nat → Nat → Int → Int
  | [], _, _ => 0
  | t :: ts, id, acc => if t = id then acc else nodeToIndex ts id (acc + 1)

/-- The bytes `List::Serialize` writes for one node: `uint32_t` data size
(the `size_t → uint32_t` cast truncates modulo `2^32`), the first `dataSize`
payload bytes (skipped when `dataSize` is 0), and the `int32_t` rand index
(`-1` for `nullptr`, else the `nodeToIndex` lookup). -/
def LList.encodeNode (s : LList) (tr : List Nat) (id : Nat) : List Nat :=
  let nd := s.nodeAt id
  let dataSize := nd.data.length % 4294967296
  u32LE dataSize
    ++ (if dataSize > 0 then nd.data.take dataSize else [])
    ++ i32LE (match nd.rand with
              | none => -1
              | some rid => nodeToIndex tr rid 0)

/-- `List::Serialize` (the byte stream it writes when every `fwrite`
succeeds): `static_cast<uint32_t>(count)`, then one record per node in
traversal order. -/
def LList.Serialize (s : LList) : List Nat :=
  let tr := s.traversal
  u32LE (s.count.emod 4294967296).toNat ++ (tr.map (s.encodeNode tr)).flatten

/-- `List::readUint32`: read 4 bytes or fail. -/
def LList.readUint32 : List Nat → Option (Nat × List Nat)
  | b0 :: b1 :: b2 :: b3 :: rest => some (leU32 b0 b1 b2 b3, rest)
  | _ => none

/-- `fread(&outRandIndex, 4, 1, file)` into an `int32_t`. -/
def readInt32 : List Nat → Option (Int × List Nat)
  | b0 :: b1 :: b2 :: b3 :: rest => some (i32ofU32 (leU32 b0 b1 b2 b3), rest)
  | _ => none

/-- `fread(buf, 1, k, file)`: read exactly `k` bytes or fail. -/
def readBytesN : Nat → List Nat → Option (List Nat × List Nat)
  | 0, rest => some ([], rest)
  | _ + 1, [] => none
  | k + 1, b :: rest =>
      match readBytesN k rest with
      | some (bs, rest2) => some (b :: bs, rest2)
      | none => none

/-- `List::readNode`: data size, then (when positive) that many payload
bytes, then the `int32_t` rand index.  Returns `(data, randIndex)` and the
remaining stream. -/
def LList.readNode (input : List Nat) : Option ((List Nat × Int) × List Nat) :=
  match LList.readUint32 input with
  | none => none
  | some (dataSize, r1) =>
      match (if dataSize > 0 then readBytesN dataSize r1 else some ([], r1)) with
      | none => none
      | some (data, r2) =>
          match readInt32 r2 with
          | none => none
          | some (randIndex, r3) => some ((data, randIndex), r3)

/-- The read loop of `List::Deserialize`: `n` records in order. -/
def readRecords : Nat → List Nat → Option (List (List Nat × Int) × List Nat)
  | 0, input => some ([], input)
  | n + 1, input =>
      match LList.readNode input with
      | none => none
      | some (rec, rest) =>
          match readRecords n rest with
          | none => none
          | some (recs, rest2) => some (rec :: recs, rest2)

/-- `List::setupLinks`: `prev`/`next` are rebuilt purely from position. -/
def LList.setupLinks (ns : List ListNode) : List ListNode :=
  let n := ns.length
  (List.range n).map fun i =>
    let nd := ns.getD i {}
    { nd with prev := if i > 0 then some (i - 1) else none,
              next := if i < n - 1 then some (i + 1) else none }

/-- `List::setupRandPointers`: a stored index in `[0, n)` resolves to the
node at that position, anything else (including `-1`) to `nullptr`. -/
def LList.setupRandPointers (ns : List ListNode) (randIndices : List Int) :
    List ListNode :=
  let n := ns.length
  (List.range n).map fun i =>
    let nd := ns.getD i {}
    let ri := randIndices.getD i (-1)
    { nd with rand := if 0 ≤ ri ∧ ri.toNat < n then some ri.toNat else none }

/-- `List::Deserialize`: clear, read the count, read the records, rebuild
links and rand pointers, set head/tail/count.  The `Bool` is `false` when a
short read raised (the list then stays as `Clear` left it); freed partial
nodes are not part of the state.  `count = static_cast<int>(newCount)` wraps
the unsigned 32-bit count into the signed 32-bit range (`i32ofU32`). -/
def LList.Deserialize (s : LList) (input : List Nat) : LList × Bool :=
  let s0 := s.Clear
  match LList.readUint32 input with
  | none => (s0, false)
  | some (newCount, r1) =>
      match readRecords newCount r1 with
      | none => (s0, false)
      | some (recs, _) =>
          let raw : List ListNode := recs.map fun r => { data := r.1 }
          let linked := LList.setupLinks raw
          let withRand := LList.setupRandPointers linked (recs.map (·.2))
          ({ nodes := withRand,
             head := if newCount > 0 then some 0 else none,
             tail := if newCount > 0 then some (newCount - 1) else none,
             count := i32ofU32 newCount }, true)

/-- One `fwrite` against a sink that accepts at most `cap` bytes in total:
a short write (sink full) is reported as failure, as `fwrite` returning less
than the requested count does. -/
def fwriteB (cap : Nat) (sink : List Nat) (bs : List Nat) : Option (List Nat) :=
  if sink.length + bs.length ≤ cap then some (sink ++ bs) else none

/-- The per-node write loop of `List::Serialize`, threading the sink. -/
def LList.writeLoop (s : LList) (tr : List Nat) (cap : Nat) :
    List Nat → List Nat → Option (List Nat)
  | [], sink => some sink
  | id :: ids, sink =>
      match fwriteB cap sink (s.encodeNode tr id) with
      | none => none
      | some sink2 => s.writeLoop tr cap ids sink2

/-- `List::Serialize` with the receiver state threaded through explicitly and
a fallible sink: the method only ever reads `this`, so the returned state is
the input state in every branch, whether the write completes or fails. -/
def LList.SerializeS (s : LList) (cap : Nat) : LList × Option (List Nat) :=
  match fwriteB cap [] (u32LE (s.count.emod 4294967296).toNat) with
  | none => (s, none)
  | some sink0 =>
      match s.writeLoop s.traversal cap s.traversal sink0 with
      | none => (s, none)
      | some sink => (s, some sink)

/-- The payloads of the list in head-to-tail traversal order. -/
def LList.payloads (s : LList) : List (List Nat) :=
  s.traversal.map fun i => (s.nodeAt i).data

/-- Is a `rand` pointer either null or a live arena index below `n`? -/
def randInRange : Option Nat → Nat → Bool
  | none, _ => true
  | some r, n => r < n

/-- Well-formedness of a list state (the representation invariant of every
state the public operations can produce): the arena holds exactly the chain
in order, `head`/`tail`/`count` agree with it, `prev`/`next` are the
positional links and every `rand` points at a live node. -/
def LList.INV (s : LList) : Prop :=
  s.head = (if s.nodes.length = 0 then none else some 0) ∧
  s.tail = (if s.nodes.length = 0 then none else some (s.nodes.length - 1)) ∧
  s.count = (s.nodes.length : Int) ∧
  ∀ i < s.nodes.length,
    (s.nodeAt i).prev = (if i = 0 then none else some (i - 1)) ∧
    (s.nodeAt i).next = (if i + 1 = s.nodes.length then none else some (i + 1)) ∧
    randInRange (s.nodeAt i).rand s.nodes.length = true

/-- Every payload fits the format's 32-bit length field. -/
def LList.dataBounded (s : LList) : Prop :=
  ∀ i < s.nodes.length, (s.nodeAt i).data.length < 4294967296

/-- All payload strings are pairwise distinct. -/
def LList.distinctData (s : LList) : Prop :=
  (s.nodes.map ListNode.data).Nodup

/-- List states built from a fresh list by `AddNode` and in-range `SetRand`
calls (the construction quantified over by the round-trip property). -/
inductive Built : LList → Prop
  | empty : Built LList.empty
  | addNode {s} (d : List Nat) : Built s → Built (s.AddNode d)
  | setRand {s} (i j : Int) : Built s → 0 ≤ i → i < s.count → 0 ≤ j →
      j < s.count → Built (s.SetRand i j)

/-- List states reachable through the public operations. -/
inductive Reachable : LList → Prop
  | empty : Reachable LList.empty
  | addNode {s} (d : List Nat) : Reachable s → Reachable (s.AddNode d)
  | setRand {s} (i j : Int) : Reachable s → Reachable (s.SetRand i j)
  | clear {s} : Reachable s → Reachable s.Clear
  | deserialize {s} (input : List Nat) : Reachable s →
      Reachable (s.Deserialize input).1

/-- List states reachable through the public operations where every decode
read a count field below `2^31` (so the `uint32 → int` count assignment in
the source was value-preserving). -/
inductive ReachableB : LList → Prop
  | empty : ReachableB LList.empty
  | addNode {s} (d : List Nat) : ReachableB s → ReachableB (s.AddNode d)
  | setRand {s} (i j : Int) : ReachableB s → ReachableB (s.SetRand i j)
  | clear {s} : ReachableB s → ReachableB s.Clear
  | deserialize {s} (input : List Nat) : ReachableB s →
      (∀ cnt r1, LList.readUint32 input = some (cnt, r1) →
        cnt < 2147483648) →
      ReachableB (s.Deserialize input).1

/-- Position of the first occurrence of `id` in a traversal. -/
def trIndexOf : List Nat → Nat → Option Nat
  | [], _ => none
  | t :: ts, id =>
      if t = id then some 0
      else match trIndexOf ts id with
           | some p => some (p + 1)
           | none => none

/-- The byte stream the specification describes (spec §4.2 / claim C2,
written from the spec's words, independently of `List::Serialize`): the node
count as an unsigned 32-bit integer, then, per node in head-to-tail traversal
order, an unsigned 32-bit payload length, the raw payload bytes, and a signed
32-bit cross-reference index equal to the traversal-order index of the node
referenced by `cross`, or `-1` when `cross` is absent. -/
def specEncoding (s : LList) : List Nat :=
  u32LE s.count.toNat ++
  (s.traversal.map fun id =>
    let nd := s.nodeAt id
    u32LE nd.data.length ++ nd.data ++
    i32LE (match nd.rand with
           | none => -1
           | some rid =>
               match trIndexOf s.traversal rid with
               | some p => (p : Int)
               | none => -1)).flatten

/-! ## List access helpers -/

theorem getD_append_lt {α : Type} (l1 l2 : List α) (i : Nat) (d : α)
    (h : i < l1.length) : (l1 ++ l2).getD i d = l1.getD i d := by
  simp [List.getD_eq_getElem?_getD, List.getElem?_append_left h]

theorem getD_append_len {α : Type} (l1 : List α) (x : α) (d : α) :
    (l1 ++ [x]).getD l1.length d = x := by
  simp [List.getD_eq_getElem?_getD]

theorem getD_set_self {α : Type} (l : List α) (i : Nat) (x : α) (d : α)
    (h : i < l.length) : (l.set i x).getD i d = x := by
  simp [List.getD_eq_getElem?_getD, List.getElem?_set_self h]

theorem getD_set_ne {α : Type} (l : List α) (i j : Nat) (x : α) (d : α)
    (h : i ≠ j) : (l.set i x).getD j d = l.getD j d := by
  simp [List.getD_eq_getElem?_getD, List.getElem?_set_ne h]

theorem getD_map_range {α : Type} (f : Nat → α) (n i : Nat) (d : α)
    (h : i < n) : ((List.range n).map f).getD i d = f i := by
  simp [List.getD_eq_getElem?_getD, List.getElem?_map, List.getElem?_range, h]

theorem getD_map_lt {α β : Type} (f : α → β) (l : List α) (i : Nat)
    (d : β) (d2 : α) (h : i < l.length) :
    (l.map f).getD i d = f (l.getD i d2) := by
  rcases List.getElem?_eq_some_iff.2 ⟨h, rfl⟩ with he
  simp [List.getD_eq_getElem?_getD, List.getElem?_map, he]

theorem randInRange_mono {o : Option Nat} {n m : Nat}
    (h : randInRange o n = true) (hnm : n ≤ m) : randInRange o m = true := by
  cases o with
  | none => rfl
  | some r => simp only [randInRange, decide_eq_true_eq] at h ⊢; omega

/-! ## Accessors for the invariant -/

theorem LList.INV.head_eq {s : LList} (h : s.INV) :
    s.head = if s.nodes.length = 0 then none else some 0 := h.1

theorem LList.INV.tail_eq {s : LList} (h : s.INV) :
    s.tail = if s.nodes.length = 0 then none else some (s.nodes.length - 1) :=
  h.2.1

theorem LList.INV.count_eq {s : LList} (h : s.INV) :
    s.count = (s.nodes.length : Int) := h.2.2.1

theorem LList.INV.prev_eq {s : LList} (h : s.INV) {i : Nat}
    (hi : i < s.nodes.length) :
    (s.nodeAt i).prev = if i = 0 then none else some (i - 1) :=
  (h.2.2.2 i hi).1

theorem LList.INV.next_eq {s : LList} (h : s.INV) {i : Nat}
    (hi : i < s.nodes.length) :
    (s.nodeAt i).next = if i + 1 = s.nodes.length then none else some (i + 1) :=
  (h.2.2.2 i hi).2.1

theorem LList.INV.rand_ok {s : LList} (h : s.INV) {i : Nat}
    (hi : i < s.nodes.length) :
    randInRange (s.nodeAt i).rand s.nodes.length = true :=
  (h.2.2.2 i hi).2.2

theorem LList.INV.rand_lt {s : LList} (h : s.INV) {i r : Nat}
    (hi : i < s.nodes.length) (hr : (s.nodeAt i).rand = some r) :
    r < s.nodes.length := by
  have := h.rand_ok hi
  rw [hr] at this
  simpa [randInRange] using this

/-! ## The traversal of a well-formed list -/

theorem chainFrom_range' {s : LList}
    (hx : ∀ i, i < s.nodes.length →
      (s.nodeAt i).next = if i + 1 = s.nodes.length then none else some (i + 1)) :
    ∀ m k fuel, k + (m + 1) = s.nodes.length → m + 1 ≤ fuel →
      s.chainFrom (some k) fuel = List.range' k (m + 1) := by
  intro m
  induction m with
  | zero =>
      intro k fuel hk hf
      match fuel, hf with
      | f + 1, _ =>
        have hklt : k < s.nodes.length := by omega
        have hnext : (s.nodeAt k).next = none := by
          rw [hx k hklt]; simp; omega
        simp [LList.chainFrom, hnext, List.range']
  | succ m ih =>
      intro k fuel hk hf
      match fuel, hf with
      | f + 1, _ =>
        have hklt : k < s.nodes.length := by omega
        have hnext : (s.nodeAt k).next = some (k + 1) := by
          rw [hx k hklt]
          have : ¬(k + 1 = s.nodes.length) := by omega
          simp [this]
        have hrec := ih (k + 1) f (by omega) (by omega)
        simp [LList.chainFrom, hnext, hrec, List.range'_succ]

theorem traversal_eq_range_aux {s : LList}
    (hh0 : s.head = if s.nodes.length = 0 then none else some 0)
    (hx : ∀ i, i < s.nodes.length →
      (s.nodeAt i).next = if i + 1 = s.nodes.length then none else some (i + 1)) :
    s.traversal = List.range s.nodes.length := by
  rcases hn : s.nodes.length with _ | m
  · have hh : s.head = none := by rw [hh0, hn]; simp
    simp [LList.traversal, hh, LList.chainFrom]
  · have hh : s.head = some 0 := by rw [hh0, hn]; simp
    rw [LList.traversal, hh, hn, chainFrom_range' hx m 0 (m + 1) (by omega) le_rfl,
      List.range_eq_range']

theorem traversal_eq_range {s : LList} (h : s.INV) :
    s.traversal = List.range s.nodes.length :=
  traversal_eq_range_aux h.head_eq (fun _ hi => h.next_eq hi)

theorem walk_add {s : LList} (h : s.INV) :
    ∀ m k, k + m < s.nodes.length → s.walk (some k) m = some (k + m) := by
  intro m
  induction m with
  | zero => intro k _; simp [LList.walk]
  | succ m ih =>
      intro k hk
      have hklt : k < s.nodes.length := by omega
      have hnext : (s.nodeAt k).next = some (k + 1) := by
        rw [h.next_eq hklt]
        have : ¬(k + 1 = s.nodes.length) := by omega
        simp [this]
      have hrec := ih (k + 1) (by omega)
      rw [LList.walk, hnext, hrec]
      congr 1
      omega

theorem walk_head {s : LList} (h : s.INV) {i : Nat} (hi : i < s.nodes.length) :
    s.walk s.head i = some i := by
  have hh : s.head = some 0 := by
    rw [h.head_eq]
    have : ¬(s.nodes.length = 0) := by omega
    simp [this]
  rw [hh]
  have := walk_add h i 0 (by omega)
  simpa using this

theorem walk_exhaust {s : LList} (h : s.INV) :
    ∀ m k, k + (m + 1) = s.nodes.length → s.walk (some k) (m + 1) = none := by
  intro m
  induction m with
  | zero =>
      intro k hk
      have hklt : k < s.nodes.length := by omega
      have hnext : (s.nodeAt k).next = none := by
        rw [h.next_eq hklt]; simp; omega
      simp [LList.walk, hnext]
  | succ m ih =>
      intro k hk
      have hklt : k < s.nodes.length := by omega
      have hnext : (s.nodeAt k).next = some (k + 1) := by
        rw [h.next_eq hklt]
        have : ¬(k + 1 = s.nodes.length) := by omega
        simp [this]
      rw [LList.walk, hnext]
      exact ih (k + 1) (by omega)

theorem walk_off_end {s : LList} (h : s.INV) :
    s.walk s.head s.nodes.length = none := by
  rcases hn : s.nodes.length with _ | m
  · have hh : s.head = none := by rw [h.head_eq, hn]; simp
    rw [hh]; rfl
  · have hh : s.head = some 0 := by rw [h.head_eq, hn]; simp
    rw [hh]
    exact walk_exhaust h m 0 (by omega)

/-! ## Index lookups over a range traversal -/

theorem nodeToIndex_range' {r : Nat} :
    ∀ m k (acc : Int), k ≤ r → r < k + m →
      nodeToIndex (List.range' k m) r acc = acc + ((r : Int) - (k : Int)) := by
  intro m
  induction m with
  | zero => intro k acc h1 h2; omega
  | succ m ih =>
      intro k acc h1 h2
      rw [List.range'_succ, nodeToIndex]
      by_cases hk : k = r
      · simp [hk]
      · have h1' : k + 1 ≤ r := by omega
        rw [if_neg hk, ih (k + 1) (acc + 1) h1' (by omega)]
        push_cast
        ring

theorem nodeToIndex_range {n r : Nat} (h : r < n) :
    nodeToIndex (List.range n) r 0 = (r : Int) := by
  rw [List.range_eq_range', nodeToIndex_range' n 0 0 (by omega) (by omega)]
  simp

theorem trIndexOf_range' {r : Nat} :
    ∀ m k, k ≤ r → r < k + m →
      trIndexOf (List.range' k m) r = some (r - k) := by
  intro m
  induction m with
  | zero => intro k h1 h2; omega
  | succ m ih =>
      intro k h1 h2
      rw [List.range'_succ, trIndexOf]
      by_cases hk : k = r
      · simp [hk]
      · rw [if_neg hk, ih (k + 1) (by omega) (by omega)]
        have : r - (k + 1) + 1 = r - k := by omega
        simp [this]

theorem trIndexOf_range {n r : Nat} (h : r < n) :
    trIndexOf (List.range n) r = some r := by
  rw [List.range_eq_range', trIndexOf_range' n 0 (by omega) (by omega)]
  simp

/-! ## Invariant preservation -/

theorem INV_empty : LList.empty.INV := by
  refine ⟨by simp [LList.empty], by simp [LList.empty], by simp [LList.empty], ?_⟩
  intro i hi
  simp [LList.empty] at hi

theorem INV_Clear (s : LList) : s.Clear.INV := by
  refine ⟨by simp [LList.Clear], by simp [LList.Clear], by simp [LList.Clear], ?_⟩
  intro i hi
  simp [LList.Clear] at hi

theorem INV_AddNode {s : LList} (h : s.INV) (d : List Nat) :
    (s.AddNode d).INV := by
  rcases hn : s.nodes.length with _ | m
  · -- empty list: first branch of the match
    have hnil : s.nodes = [] := List.length_eq_zero.mp hn
    have hh : s.head = none := by rw [h.head_eq, hn]; simp
    have hc : s.count = 0 := by rw [h.count_eq, hn]; simp
    have hred : s.AddNode d =
        { nodes := [({ data := d } : ListNode)], head := some 0, tail := some 0,
          count := 1 } := by
      simp [LList.AddNode, hh, hnil, hc]
    rw [hred]
    refine ⟨by simp, by simp, by simp, ?_⟩
    intro k hk
    simp only [List.length_cons, List.length_nil] at hk
    have hk0 : k = 0 := by omega
    subst hk0
    exact ⟨by simp [LList.nodeAt], by simp [LList.nodeAt],
           by simp [LList.nodeAt, randInRange]⟩
  · -- nonempty list: tail is node m, the new node gets id m + 1
    have hh : s.head = some 0 := by rw [h.head_eq, hn]; simp
    have ht : s.tail = some m := by rw [h.tail_eq, hn]; simp
    have hc : s.count = ((m : Int) + 1) := by rw [h.count_eq, hn]; push_cast; ring
    have hred : s.AddNode d =
        { s with nodes := setNode s.nodes m (fun nd => { nd with next := some (m + 1) })
                            ++ [({ prev := some m, data := d } : ListNode)],
                 tail := some (m + 1),
                 count := s.count + 1 } := by
      simp [LList.AddNode, hh, ht, hn]
    have hsetlen : (setNode s.nodes m
        (fun nd => { nd with next := some (m + 1) })).length = m + 1 := by
      simp [setNode, List.length_set, hn]
    have hlen : (s.AddNode d).nodes.length = m + 2 := by
      rw [hred]
      simp only [List.length_append, hsetlen, List.length_cons, List.length_nil]
    have hAt : ∀ k, k < m + 2 → (s.AddNode d).nodeAt k =
        if k = m + 1 then ({ prev := some m, data := d } : ListNode)
        else if k = m then { s.nodeAt m with next := some (m + 1) }
        else s.nodeAt k := by
      intro k hk
      have : (s.AddNode d).nodeAt k =
          (setNode s.nodes m (fun nd => { nd with next := some (m + 1) })
            ++ [({ prev := some m, data := d } : ListNode)]).getD k {} := by
        rw [hred]; rfl
      rw [this]
      by_cases h1 : k = m + 1
      · subst h1
        rw [if_pos rfl]
        have := getD_append_len (setNode s.nodes m
          (fun nd => { nd with next := some (m + 1) }))
          ({ prev := some m, data := d } : ListNode) {}
        rw [hsetlen] at this
        exact this
      · rw [if_neg h1, getD_append_lt _ _ _ _ (by omega)]
        by_cases h2 : k = m
        · subst h2
          rw [if_pos rfl, setNode, getD_set_self _ _ _ _ (by omega)]
          rfl
        · rw [if_neg h2, setNode, getD_set_ne _ _ _ _ _ (by omega)]
          rfl
    refine ⟨?_, ?_, ?_, ?_⟩
    · rw [hlen, hred]; simp [hh]
    · rw [hlen, hred]; simp
    · rw [hlen, hred]; simp [hc]; ring
    · intro k hk
      rw [hlen] at hk
      rw [hAt k hk, hlen]
      by_cases h1 : k = m + 1
      · subst h1
        rw [if_pos rfl]
        refine ⟨by simp, by simp, by simp [randInRange]⟩
      · rw [if_neg h1]
        have hklt : k < s.nodes.length := by omega
        have hprev := h.prev_eq hklt
        have hrand := h.rand_ok hklt
        rw [hn] at hrand
        by_cases h2 : k = m
        · subst h2
          rw [if_pos rfl]
          refine ⟨by simpa using hprev, ?_, ?_⟩
          · have : ¬(k + 1 = k + 2) := by omega
            simp [this]
          · simpa using randInRange_mono hrand (by omega)
        · rw [if_neg h2]
          have hnext := h.next_eq hklt
          rw [hn] at hnext
          have hne1 : ¬(k + 1 = m + 1) := by omega
          rw [if_neg hne1] at hnext
          refine ⟨hprev, ?_, randInRange_mono hrand (by omega)⟩
          rw [hnext]
          have : ¬(k + 1 = m + 2) := by omega
          rw [if_neg this]

theorem INV_SetRand {s : LList} (h : s.INV) (i j : Int) :
    (s.SetRand i j).INV := by
  by_cases hg : i < 0 ∨ i ≥ s.count ∨ j < 0 ∨ j ≥ s.count
  · simpa [LList.SetRand, hg] using h
  · push_neg at hg
    obtain ⟨hi0, hic, hj0, hjc⟩ := hg
    have hgf : ¬(i < 0 ∨ i ≥ s.count ∨ j < 0 ∨ j ≥ s.count) := by
      push_neg
      exact ⟨hi0, hic, hj0, hjc⟩
    have hin : i.toNat < s.nodes.length := by
      rw [h.count_eq] at hic; omega
    have hjn : j.toNat < s.nodes.length := by
      rw [h.count_eq] at hjc; omega
    have hred : s.SetRand i j =
        { s with nodes := setNode s.nodes i.toNat
                            (fun nd => { nd with rand := some j.toNat }) } := by
      rw [LList.SetRand, if_neg hgf, walk_head h hin, walk_head h hjn]
    have hlen : (s.SetRand i j).nodes.length = s.nodes.length := by
      rw [hred]
      simp [setNode, List.length_set]
    have hAt : ∀ k, k < s.nodes.length → (s.SetRand i j).nodeAt k =
        if k = i.toNat then { s.nodeAt i.toNat with rand := some j.toNat }
        else s.nodeAt k := by
      intro k hk
      have : (s.SetRand i j).nodeAt k =
          (setNode s.nodes i.toNat
            (fun nd => { nd with rand := some j.toNat })).getD k {} := by
        rw [hred]
        rfl
      rw [this]
      by_cases h1 : k = i.toNat
      · subst h1
        rw [if_pos rfl, setNode, getD_set_self _ _ _ _ hk]
        rfl
      · rw [if_neg h1, setNode, getD_set_ne _ _ _ _ _ (fun e => h1 e.symm)]
        rfl
    have hhead : (s.SetRand i j).head = s.head := by rw [hred]
    have htail : (s.SetRand i j).tail = s.tail := by rw [hred]
    have hcount : (s.SetRand i j).count = s.count := by rw [hred]
    refine ⟨by rw [hhead, hlen]; exact h.head_eq,
            by rw [htail, hlen]; exact h.tail_eq,
            by rw [hcount, hlen]; exact h.count_eq, ?_⟩
    intro k hk
    rw [hlen] at hk
    rw [hAt k hk, hlen]
    by_cases h1 : k = i.toNat
    · subst h1
      rw [if_pos rfl]
      exact ⟨by simpa using h.prev_eq hk, by simpa using h.next_eq hk,
             by simp [randInRange, hjn]⟩
    · rw [if_neg h1]
      exact ⟨h.prev_eq hk, h.next_eq hk, h.rand_ok hk⟩

/-! ## Characterising `Deserialize` -/

theorem readRecords_length :
    ∀ (n : Nat) (input : List Nat) (recs : List (List Nat × Int)) (rest : List Nat),
      readRecords n input = some (recs, rest) → recs.length = n := by
  intro n
  induction n with
  | zero =>
      intro input recs rest h
      simp [readRecords] at h
      simp [h.1]
  | succ n ih =>
      intro input recs rest h
      rw [readRecords] at h
      split at h
      · exact absurd h (by simp)
      · split at h
        · exact absurd h (by simp)
        · rename_i r mid hr recs2 rest2 hs
          simp only [Option.some.injEq, Prod.mk.injEq] at h
          rcases h with ⟨h1, _⟩
          rw [← h1]
          simp [ih _ recs2 rest2 hs]

theorem deserialize_nodes (recs : List (List Nat × Int)) :
    LList.setupRandPointers
        (LList.setupLinks (recs.map fun r => ({ data := r.1 } : ListNode)))
        (recs.map (·.2)) =
      (List.range recs.length).map (fun i =>
        { prev := if i = 0 then none else some (i - 1),
          next := if i + 1 = recs.length then none else some (i + 1),
          rand := if 0 ≤ (recs.getD i ([], -1)).2 ∧
                      ((recs.getD i ([], -1)).2).toNat < recs.length
                  then some ((recs.getD i ([], -1)).2).toNat else none,
          data := (recs.getD i ([], -1)).1 }) := by
  unfold LList.setupRandPointers LList.setupLinks
  simp only [List.length_map, List.length_range]
  refine List.map_congr_left ?_
  intro i hi
  rw [List.mem_range] at hi
  rw [getD_map_range _ _ _ _ hi,
      getD_map_lt (fun r => ({ data := r.1 } : ListNode)) recs i {} ([], -1) (by omega),
      getD_map_lt (·.2) recs i (-1) ([], -1) (by omega)]
  have hprev : (if i > 0 then some (i - 1) else none) =
      (if i = 0 then none else some (i - 1)) := by
    by_cases h0 : i = 0 <;> simp [h0]
  have hnext : (if i < recs.length - 1 then some (i + 1) else none) =
      (if i + 1 = recs.length then none else some (i + 1)) := by
    by_cases h0 : i + 1 = recs.length
    · have : ¬(i < recs.length - 1) := by omega
      simp [h0, this]
    · have : i < recs.length - 1 := by omega
      simp [h0, this]
  simp only [hprev, hnext]

theorem deserialize_success (s : LList) {input r1 rest : List Nat} {cnt : Nat}
    {recs : List (List Nat × Int)}
    (h1 : LList.readUint32 input = some (cnt, r1))
    (h2 : readRecords cnt r1 = some (recs, rest)) :
    s.Deserialize input =
      ({ nodes := (List.range cnt).map (fun i =>
           { prev := if i = 0 then none else some (i - 1),
             next := if i + 1 = cnt then none else some (i + 1),
             rand := if 0 ≤ (recs.getD i ([], -1)).2 ∧
                         ((recs.getD i ([], -1)).2).toNat < cnt
                     then some ((recs.getD i ([], -1)).2).toNat else none,
             data := (recs.getD i ([], -1)).1 }),
         head := if cnt > 0 then some 0 else none,
         tail := if cnt > 0 then some (cnt - 1) else none,
         count := i32ofU32 cnt }, true) := by
  have hlen := readRecords_length cnt r1 recs rest h2
  subst hlen
  simp only [LList.Deserialize, h1, h2]
  rw [deserialize_nodes recs]

/-- The state component of a successful decode (same records as
`deserialize_success`). -/
theorem deserialize_success_fst (s : LList) {input r1 rest : List Nat}
    {cnt : Nat} {recs : List (List Nat × Int)}
    (h1 : LList.readUint32 input = some (cnt, r1))
    (h2 : readRecords cnt r1 = some (recs, rest)) :
    (s.Deserialize input).1 =
      { nodes := (List.range cnt).map (fun i =>
          { prev := if i = 0 then none else some (i - 1),
            next := if i + 1 = cnt then none else some (i + 1),
            rand := if 0 ≤ (recs.getD i ([], -1)).2 ∧
                        ((recs.getD i ([], -1)).2).toNat < cnt
                    then some ((recs.getD i ([], -1)).2).toNat else none,
            data := (recs.getD i ([], -1)).1 }),
        head := if cnt > 0 then some 0 else none,
        tail := if cnt > 0 then some (cnt - 1) else none,
        count := i32ofU32 cnt } := by
  rw [deserialize_success s h1 h2]

theorem deserialize_failure (s : LList) (input : List Nat)
    (h : (s.Deserialize input).2 = false) :
    (s.Deserialize input).1 =
      { nodes := [], head := none, tail := none, count := 0 } := by
  rcases h1 : LList.readUint32 input with _ | ⟨cnt, r1⟩
  · simp only [LList.Deserialize, h1]
    rfl
  · rcases h2 : readRecords cnt r1 with _ | ⟨recs, rest⟩
    · simp only [LList.Deserialize, h1, h2]
      rfl
    · rw [deserialize_success s h1 h2] at h
      simp at h

/-- A state whose arena is `n` positionally linked nodes with in-range rand
pointers satisfies the invariant. -/
theorem INV_canonical (g : Nat → Option Nat) (ds : Nat → List Nat) (n : Nat)
    (hg : ∀ i, i < n → randInRange (g i) n = true) :
    LList.INV
      { nodes := (List.range n).map (fun i =>
          { prev := if i = 0 then none else some (i - 1),
            next := if i + 1 = n then none else some (i + 1),
            rand := g i, data := ds i }),
        head := if n > 0 then some 0 else none,
        tail := if n > 0 then some (n - 1) else none,
        count := (n : Int) } := by
  have hlen : ((List.range n).map (fun i =>
      ({ prev := if i = 0 then none else some (i - 1),
         next := if i + 1 = n then none else some (i + 1),
         rand := g i, data := ds i } : ListNode))).length = n := by
    simp
  refine ⟨?_, ?_, ?_, ?_⟩
  · show (if n > 0 then some 0 else none) = _
    rw [hlen]
    by_cases h0 : n = 0 <;> simp [h0]
  · show (if n > 0 then some (n - 1) else none) = _
    rw [hlen]
    by_cases h0 : n = 0 <;> simp [h0]
  · show ((n : Int)) = _
    rw [hlen]
  · intro k hk
    rw [hlen] at hk
    have hAt : ∀ (st : LList),
        st.nodes = (List.range n).map (fun i =>
          ({ prev := if i = 0 then none else some (i - 1),
             next := if i + 1 = n then none else some (i + 1),
             rand := g i, data := ds i } : ListNode)) →
        st.nodeAt k = ({ prev := if k = 0 then none else some (k - 1),
                         next := if k + 1 = n then none else some (k + 1),
                         rand := g k, data := ds k } : ListNode) := by
      intro st hst
      rw [LList.nodeAt, hst, getD_map_range _ _ _ _ hk]
    rw [hAt _ rfl, hlen]
    exact ⟨rfl, rfl, hg k hk⟩

/-- `static_cast<int>` of an unsigned value below `2^31` is value-preserving. -/
theorem i32ofU32_small {n : Nat} (h : n < 2147483648) : i32ofU32 n = (n : Int) := by
  unfold i32ofU32
  have hm : n % 4294967296 = n := Nat.mod_eq_of_lt (by omega)
  rw [hm, if_pos h]

theorem INV_Deserialize (s : LList) (input : List Nat)
    (hb : ∀ cnt r1, LList.readUint32 input = some (cnt, r1) →
      cnt < 2147483648) :
    ((s.Deserialize input).1).INV := by
  rcases h1 : LList.readUint32 input with _ | ⟨cnt, r1⟩
  · have hcl : (s.Deserialize input).1 =
        { nodes := [], head := none, tail := none, count := 0 } := by
      simp only [LList.Deserialize, h1]
      rfl
    rw [hcl]
    exact INV_Clear s
  · rcases h2 : readRecords cnt r1 with _ | ⟨recs, rest⟩
    · have hcl : (s.Deserialize input).1 =
          { nodes := [], head := none, tail := none, count := 0 } := by
        simp only [LList.Deserialize, h1, h2]
        rfl
      rw [hcl]
      exact INV_Clear s
    · have hcnt : i32ofU32 cnt = (cnt : Int) := i32ofU32_small (hb cnt r1 h1)
      rw [deserialize_success s h1 h2, hcnt]
      show LList.INV _
      refine INV_canonical
        (fun i => if 0 ≤ (recs.getD i ([], -1)).2 ∧
                      ((recs.getD i ([], -1)).2).toNat < cnt
                  then some ((recs.getD i ([], -1)).2).toNat else none)
        (fun i => (recs.getD i ([], -1)).1) cnt ?_
      intro i _
      dsimp only
      by_cases hc : 0 ≤ (recs.getD i ([], -1)).2 ∧
          ((recs.getD i ([], -1)).2).toNat < cnt
      · rw [if_pos hc]
        simpa [randInRange] using hc.2
      · rw [if_neg hc]
        rfl

theorem Built_INV {s : LList} (h : Built s) : s.INV := by
  induction h with
  | empty => exact INV_empty
  | addNode d _ ih => exact INV_AddNode ih d
  | setRand i j _ _ _ _ _ ih => exact INV_SetRand ih i j

theorem ReachableB_INV {s : LList} (h : ReachableB s) : s.INV := by
  induction h with
  | empty => exact INV_empty
  | addNode d _ ih => exact INV_AddNode ih d
  | setRand i j _ ih => exact INV_SetRand ih i j
  | clear _ _ => exact INV_Clear _
  | deserialize input _ hb _ => exact INV_Deserialize _ input hb

/-! ## Payload views -/

theorem nodeExt (a b : ListNode) (h1 : a.prev = b.prev) (h2 : a.next = b.next)
    (h3 : a.rand = b.rand) (h4 : a.data = b.data) : a = b := by
  cases a
  cases b
  simp_all

theorem set_getD_self {α : Type} :
    ∀ (l : List α) (i : Nat) (d : α), i < l.length → l.set i (l.getD i d) = l := by
  intro l
  induction l with
  | nil => intro i d h; simp at h
  | cons x xs ih =>
      intro i d h
      cases i with
      | zero => simp [List.getD]
      | succ i =>
          simp only [List.set, List.getD_cons_succ]
          rw [ih i d (by simpa using h)]

theorem map_range_getD {α β : Type} (l : List α) (d : α) (f : α → β) :
    (List.range l.length).map (fun i => f (l.getD i d)) = l.map f := by
  apply List.ext_getElem?
  intro i
  by_cases h : i < l.length
  · rw [List.getElem?_map, List.getElem?_range h, List.getElem?_map,
        List.getElem?_eq_getElem h]
    simp [List.getD_eq_getElem?_getD, List.getElem?_eq_getElem h]
  · rw [List.getElem?_map, List.getElem?_map]
    have h1 : (List.range l.length)[i]? = none := by
      rw [List.getElem?_eq_none]
      simpa using h
    have h2 : l[i]? = none := by
      rw [List.getElem?_eq_none]
      omega
    rw [h1, h2]
    rfl

theorem payloads_eq {s : LList} (h : s.INV) :
    s.payloads = s.nodes.map ListNode.data := by
  rw [LList.payloads, traversal_eq_range h]
  exact map_range_getD s.nodes {} ListNode.data

theorem addNode_data_arena {s : LList} (h : s.INV) (d : List Nat) :
    (s.AddNode d).nodes.map ListNode.data = s.nodes.map ListNode.data ++ [d] := by
  rcases hn : s.nodes.length with _ | m
  · have hnil : s.nodes = [] := List.length_eq_zero.mp hn
    have hh : s.head = none := by rw [h.head_eq, hn]; simp
    simp [LList.AddNode, hh, hnil]
  · have hh : s.head = some 0 := by rw [h.head_eq, hn]; simp
    have ht : s.tail = some m := by rw [h.tail_eq, hn]; simp
    have hred : (s.AddNode d).nodes =
        setNode s.nodes m (fun nd => { nd with next := some (m + 1) })
          ++ [({ prev := some m, data := d } : ListNode)] := by
      simp [LList.AddNode, hh, ht, hn]
    rw [hred, List.map_append, setNode, List.map_set]
    have : ((fun nd : ListNode => { nd with next := some (m + 1) })
        (s.nodes.getD m ({} : ListNode))).data = (s.nodes.getD m {}).data := rfl
    rw [this]
    have hgd : (s.nodes.getD m ({} : ListNode)).data =
        (s.nodes.map ListNode.data).getD m [] := by
      rw [getD_map_lt ListNode.data s.nodes m [] {} (by omega)]
    rw [hgd, set_getD_self _ _ _ (by simp [hn])]
    rfl

theorem addNode_count {s : LList} (h : s.INV) (d : List Nat) :
    (s.AddNode d).count = s.count + 1 := by
  rcases hn : s.nodes.length with _ | m
  · have hh : s.head = none := by rw [h.head_eq, hn]; simp
    simp [LList.AddNode, hh]
  · have hh : s.head = some 0 := by rw [h.head_eq, hn]; simp
    have ht : s.tail = some m := by rw [h.tail_eq, hn]; simp
    simp [LList.AddNode, hh, ht]

theorem addNode_payloads {s : LList} (h : s.INV) (d : List Nat) :
    (s.AddNode d).payloads = s.payloads ++ [d] := by
  rw [payloads_eq (INV_AddNode h d), payloads_eq h, addNode_data_arena h d]

theorem leU32_u32 (n : Nat) :
    leU32 (n % 256) (n / 256 % 256) (n / 65536 % 256) (n / 16777216 % 256) =
      n % 4294967296 := by
  unfold leU32
  omega

theorem u32LE_mod (n : Nat) : u32LE (n % 4294967296) = u32LE n := by
  unfold u32LE
  have h1 : n % 4294967296 % 256 = n % 256 := by omega
  have h2 : n % 4294967296 / 256 % 256 = n / 256 % 256 := by omega
  have h3 : n % 4294967296 / 65536 % 256 = n / 65536 % 256 := by omega
  have h4 : n % 4294967296 / 16777216 % 256 = n / 16777216 % 256 := by omega
  rw [h1, h2, h3, h4]

theorem readUint32_u32LE (n : Nat) (rest : List Nat) :
    LList.readUint32 (u32LE n ++ rest) = some (n % 4294967296, rest) := by
  rw [u32LE]
  show LList.readUint32 (_ :: _ :: _ :: _ :: rest) = _
  rw [LList.readUint32, leU32_u32 n]

theorem i32ofU32_emod (v : Int) (h1 : -2147483648 ≤ v) (h2 : v < 2147483648) :
    i32ofU32 ((v.emod 4294967296).toNat) = v := by
  have he : 0 ≤ v.emod 4294967296 := Int.emod_nonneg v (by norm_num)
  have hlt : v.emod 4294967296 < 4294967296 := Int.emod_lt_of_pos v (by norm_num)
  set m := (v.emod 4294967296).toNat with hm
  have hmv : (m : Int) = v.emod 4294967296 := by omega
  have hmod : m % 4294967296 = m := by omega
  have hq : v.emod 4294967296 = v - 4294967296 * (v / 4294967296) :=
    Int.emod_def v 4294967296
  unfold i32ofU32
  rw [hmod]
  split
  · omega
  · omega

theorem readInt32_i32LE (v : Int) (rest : List Nat)
    (h1 : -2147483648 ≤ v) (h2 : v < 2147483648) :
    readInt32 (i32LE v ++ rest) = some (v, rest) := by
  rw [i32LE, u32LE]
  show readInt32 (_ :: _ :: _ :: _ :: rest) = _
  rw [readInt32, leU32_u32]
  have hm : (v.emod 4294967296).toNat % 4294967296 = (v.emod 4294967296).toNat := by
    have he : 0 ≤ v.emod 4294967296 := Int.emod_nonneg v (by norm_num)
    have hlt : v.emod 4294967296 < 4294967296 := Int.emod_lt_of_pos v (by norm_num)
    omega
  rw [show i32ofU32 ((v.emod 4294967296).toNat % 4294967296) =
        i32ofU32 ((v.emod 4294967296).toNat) by rw [hm],
      i32ofU32_emod v h1 h2]

/-- The bytes of one serialized record. -/
def encodeRec (r : List Nat × Int) : List Nat :=
  u32LE r.1.length ++ r.1 ++ i32LE r.2

theorem readBytesN_exact : ∀ (bs rest : List Nat),
    readBytesN bs.length (bs ++ rest) = some (bs, rest) := by
  intro bs
  induction bs with
  | nil => intro rest; rfl
  | cons b bs ih =>
      intro rest
      show readBytesN (bs.length + 1) (b :: (bs ++ rest)) = _
      rw [readBytesN, ih rest]

theorem readNode_encodeRec (r : List Nat × Int) (rest : List Nat)
    (hd : r.1.length < 4294967296) (h1 : -2147483648 ≤ r.2)
    (h2 : r.2 < 2147483648) :
    LList.readNode (encodeRec r ++ rest) = some (r, rest) := by
  obtain ⟨d, ri⟩ := r
  simp only at hd h1 h2
  have hstream : encodeRec (d, ri) ++ rest =
      u32LE d.length ++ (d ++ (i32LE ri ++ rest)) := by
    simp [encodeRec, List.append_assoc]
  rw [hstream]
  simp only [LList.readNode, readUint32_u32LE, Nat.mod_eq_of_lt hd]
  by_cases h0 : d.length > 0
  · simp only [h0, if_true, readBytesN_exact, readInt32_i32LE ri rest h1 h2]
  · have hnil : d = [] := List.length_eq_zero.mp (by omega)
    subst hnil
    simp [readInt32_i32LE ri rest h1 h2]

theorem readRecords_encode :
    ∀ (recs : List (List Nat × Int)) (rest : List Nat),
      (∀ r ∈ recs, r.1.length < 4294967296 ∧ -2147483648 ≤ r.2 ∧
        r.2 < 2147483648) →
      readRecords recs.length ((recs.map encodeRec).flatten ++ rest) =
        some (recs, rest) := by
  intro recs
  induction recs with
  | nil => intro rest _; rfl
  | cons r recs ih =>
      intro rest hb
      have hr := hb r (by simp)
      have hstream : ((r :: recs).map encodeRec).flatten ++ rest =
          encodeRec r ++ (((recs.map encodeRec).flatten) ++ rest) := by
        simp [List.append_assoc]
      show readRecords (recs.length + 1) _ = _
      rw [hstream]
      simp only [readRecords, readNode_encodeRec r _ hr.1 hr.2.1 hr.2.2,
          ih rest (fun q hq => hb q (by simp [hq]))]

/-- The `int32_t` value `List::Serialize` stores for node `i`'s rand pointer,
expressed directly: `-1` for null, else the pointee's arena index (which for
a well-formed list equals its traversal index). -/
def rix (s : LList) (i : Nat) : Int :=
  match (s.nodeAt i).rand with
  | none => -1
  | some r => (r : Int)

/-- The records `List::Serialize` emits for a well-formed list, per position. -/
def recordsOf (s : LList) : List (List Nat × Int) :=
  (List.range s.nodes.length).map fun i => ((s.nodeAt i).data, rix s i)

theorem llistExt (a b : LList) (h1 : a.nodes = b.nodes) (h2 : a.head = b.head)
    (h3 : a.tail = b.tail) (h4 : a.count = b.count) : a = b := by
  cases a
  cases b
  simp_all

theorem Serialize_records {s : LList} (hI : s.INV) (hD : s.dataBounded) :
    s.Serialize = u32LE s.nodes.length ++ ((recordsOf s).map encodeRec).flatten := by
  rw [LList.Serialize, traversal_eq_range hI]
  have hcnt : ((s.count.emod 4294967296).toNat) = s.nodes.length % 4294967296 := by
    rw [hI.count_eq]
    have hq : ((s.nodes.length : Int)).emod 4294967296 =
        (s.nodes.length : Int) - 4294967296 * ((s.nodes.length : Int) / 4294967296) :=
      Int.emod_def _ _
    omega
  rw [hcnt, u32LE_mod]
  have hrecs : (List.range s.nodes.length).map
      (s.encodeNode (List.range s.nodes.length)) = (recordsOf s).map encodeRec := by
    rw [recordsOf, List.map_map]
    refine List.map_congr_left ?_
    intro i hi
    rw [List.mem_range] at hi
    have hdl := hD i hi
    show s.encodeNode (List.range s.nodes.length) i = _
    rw [LList.encodeNode]
    simp only [Function.comp]
    rw [Nat.mod_eq_of_lt hdl]
    have hpayload : (if (s.nodeAt i).data.length > 0
        then (s.nodeAt i).data.take (s.nodeAt i).data.length else []) =
        (s.nodeAt i).data := by
      by_cases h0 : (s.nodeAt i).data.length > 0
      · rw [if_pos h0, List.take_length]
      · rw [if_neg h0]
        have : (s.nodeAt i).data = [] := List.length_eq_zero.mp (by omega)
        rw [this]
    rw [hpayload]
    have hidx : (match (s.nodeAt i).rand with
        | none => (-1 : Int)
        | some rid => nodeToIndex (List.range s.nodes.length) rid 0) = rix s i := by
      rw [rix]
      rcases hr : (s.nodeAt i).rand with _ | r
      · rfl
      · exact nodeToIndex_range (hI.rand_lt hi hr)
    rw [hidx]
    rfl
  rw [hrecs]

theorem recordsOf_getD {s : LList} {i : Nat} (hi : i < s.nodes.length) :
    (recordsOf s).getD i ([], -1) = ((s.nodeAt i).data, rix s i) := by
  rw [recordsOf]
  exact getD_map_range _ _ _ _ hi

theorem recordsOf_length (s : LList) : (recordsOf s).length = s.nodes.length := by
  simp [recordsOf]

theorem roundtrip_eq {s : LList} (hI : s.INV) (hD : s.dataBounded)
    (hN : s.nodes.length < 2147483648) (t : LList) :
    t.Deserialize s.Serialize = (s, true) := by
  have hb : ∀ r ∈ recordsOf s, r.1.length < 4294967296 ∧
      -2147483648 ≤ r.2 ∧ r.2 < 2147483648 := by
    intro r hr
    rw [recordsOf, List.mem_map] at hr
    obtain ⟨i, hi, rfl⟩ := hr
    rw [List.mem_range] at hi
    refine ⟨hD i hi, ?_, ?_⟩ <;>
      · rw [rix]
        rcases hrd : (s.nodeAt i).rand with _ | r2
        · norm_num
        · have := hI.rand_lt hi hrd
          simp
          omega
  have h1 : LList.readUint32 s.Serialize =
      some (s.nodes.length, ((recordsOf s).map encodeRec).flatten) := by
    rw [Serialize_records hI hD, readUint32_u32LE, Nat.mod_eq_of_lt (by omega)]
  have h2 : readRecords s.nodes.length ((recordsOf s).map encodeRec).flatten =
      some (recordsOf s, []) := by
    have := readRecords_encode (recordsOf s) [] hb
    rw [List.append_nil, recordsOf_length] at this
    exact this
  rw [deserialize_success t h1 h2]
  refine Prod.ext ?_ rfl
  show LList.mk _ _ _ _ = s
  refine llistExt _ _ ?_ ?_ ?_ ?_
  · show (List.range s.nodes.length).map _ = s.nodes
    apply List.ext_getElem?
    intro i
    by_cases hi : i < s.nodes.length
    · rw [List.getElem?_map, List.getElem?_range hi, List.getElem?_eq_getElem hi]
      show some _ = _
      congr 1
      have hnd : s.nodes[i] = s.nodeAt i := by
        simp [LList.nodeAt, List.getD_eq_getElem?_getD, List.getElem?_eq_getElem hi]
      rw [hnd]
      refine (nodeExt _ _ ?_ ?_ ?_ ?_).symm
      · show (s.nodeAt i).prev = if i = 0 then none else some (i - 1)
        rw [hI.prev_eq hi]
      · show (s.nodeAt i).next =
            if i + 1 = s.nodes.length then none else some (i + 1)
        rw [hI.next_eq hi]
      · show (s.nodeAt i).rand =
            if 0 ≤ ((recordsOf s).getD i ([], -1)).2 ∧
                ((recordsOf s).getD i ([], -1)).2.toNat < s.nodes.length
            then some ((recordsOf s).getD i ([], -1)).2.toNat else none
        rw [recordsOf_getD hi]
        show (s.nodeAt i).rand = if 0 ≤ rix s i ∧ (rix s i).toNat < s.nodes.length
            then some (rix s i).toNat else none
        rcases hrd : (s.nodeAt i).rand with _ | r
        · rw [rix, hrd]
          norm_num
        · have hrlt := hI.rand_lt hi hrd
          rw [rix, hrd]
          have hc : (0 : Int) ≤ (r : Int) ∧ ((r : Int)).toNat < s.nodes.length := by
            constructor
            · positivity
            · simpa using hrlt
          rw [if_pos hc]
          simp
      · show (s.nodeAt i).data = ((recordsOf s).getD i ([], -1)).1
        rw [recordsOf_getD hi]
    · have h1 : ((List.range s.nodes.length).map (fun i =>
          ({ prev := if i = 0 then none else some (i - 1),
             next := if i + 1 = s.nodes.length then none else some (i + 1),
             rand := if 0 ≤ ((recordsOf s).getD i ([], -1)).2 ∧
                         (((recordsOf s).getD i ([], -1)).2).toNat < s.nodes.length
                     then some (((recordsOf s).getD i ([], -1)).2).toNat else none,
             data := ((recordsOf s).getD i ([], -1)).1 } : ListNode)))[i]? = none := by
        rw [List.getElem?_eq_none]
        simpa using hi
      rw [h1]
      symm
      rw [List.getElem?_eq_none]
      omega
  · show (if s.nodes.length > 0 then some 0 else none) = s.head
    rw [hI.head_eq]
    by_cases h0 : s.nodes.length = 0 <;> simp [h0]
  · show (if s.nodes.length > 0 then some (s.nodes.length - 1) else none) = s.tail
    rw [hI.tail_eq]
    by_cases h0 : s.nodes.length = 0 <;> simp [h0]
  · show i32ofU32 s.nodes.length = s.count
    rw [i32ofU32_small hN, hI.count_eq]

theorem range_getLast? (n : Nat) :
    (List.range n).getLast? = if n = 0 then none else some (n - 1) := by
  cases n with
  | zero => rfl
  | succ m =>
      rw [List.range_succ]
      simp

theorem setRand_out_of_range (s : LList) (i j : Int)
    (h : i < 0 ∨ i ≥ s.count ∨ j < 0 ∨ j ≥ s.count) :
    s.SetRand i j = s := by
  rw [LList.SetRand, if_pos h]

theorem setRand_in_range {s : LList} (hI : s.INV) {i j : Int}
    (hi0 : 0 ≤ i) (hic : i < s.count) (hj0 : 0 ≤ j) (hjc : j < s.count) :
    s.SetRand i j =
      { s with nodes := setNode s.nodes i.toNat
                          (fun nd => { nd with rand := some j.toNat }) } := by
  have hgf : ¬(i < 0 ∨ i ≥ s.count ∨ j < 0 ∨ j ≥ s.count) := by
    push_neg
    exact ⟨hi0, hic, hj0, hjc⟩
  have hin : i.toNat < s.nodes.length := by
    rw [hI.count_eq] at hic; omega
  have hjn : j.toNat < s.nodes.length := by
    rw [hI.count_eq] at hjc; omega
  rw [LList.SetRand, if_neg hgf, walk_head hI hin, walk_head hI hjn]

theorem Serialize_eq_specEncoding {s : LList} (hI : s.INV) (hD : s.dataBounded) :
    s.Serialize = specEncoding s := by
  rw [Serialize_records hI hD, specEncoding, traversal_eq_range hI]
  have hcnt : s.count.toNat = s.nodes.length := by
    rw [hI.count_eq]
    omega
  rw [hcnt]
  congr 1
  rw [recordsOf, List.map_map]
  refine congrArg List.flatten (List.map_congr_left ?_)
  intro i hi
  rw [List.mem_range] at hi
  show encodeRec ((s.nodeAt i).data, rix s i) = _
  rw [encodeRec]
  dsimp only
  congr 1
  congr 1
  rw [rix]
  rcases hr : (s.nodeAt i).rand with _ | r
  · rfl
  · simp [trIndexOf_range (hI.rand_lt hi hr)]

theorem serializeS_state (s : LList) (cap : Nat) : (s.SerializeS cap).1 = s := by
  rw [LList.SerializeS]
  rcases h0 : fwriteB cap [] (u32LE (s.count.emod 4294967296).toNat) with _ | sink0
  · rfl
  · rcases h1 : s.writeLoop s.traversal cap s.traversal sink0 with _ | sink <;>
      simp [h1]

theorem addNode_empty (d : List Nat) :
    LList.empty.AddNode d =
      { nodes := [{ data := d }], head := some 0, tail := some 0, count := 1 } := by
  simp [LList.AddNode, LList.empty]

theorem i32LE_neg_one : i32LE (-1) = [255, 255, 255, 255] := by decide

theorem serialize_single (d : List Nat) :
    (LList.empty.AddNode d).Serialize =
      u32LE 1 ++ ((u32LE (d.length % 4294967296) ++
        ((if d.length % 4294967296 > 0 then d.take (d.length % 4294967296) else []) ++
        [255, 255, 255, 255])) ++ []) := by
  rw [addNode_empty, LList.Serialize]
  have htr : ({ nodes := [{ data := d }], head := some 0, tail := some 0, count := 1 } : LList).traversal = [0] := rfl
  rw [htr]
  have hcnt : (((1 : Int)).emod 4294967296).toNat = 1 := by decide
  have hc1 : ({ nodes := [{ data := d }], head := some 0, tail := some 0, count := 1 } : LList).count = 1 := rfl
  rw [hc1, hcnt]
  congr 1
  show (({ nodes := [{ data := d }], head := some 0, tail := some 0, count := 1 } : LList).encodeNode [0] 0) ++ [] = _
  rw [LList.encodeNode]
  have hnd : ({ nodes := [{ data := d }], head := some 0, tail := some 0, count := 1 } : LList).nodeAt 0 = { data := d } := rfl
  rw [hnd]
  show (u32LE (d.length % 4294967296) ++
      ((if d.length % 4294967296 > 0 then d.take (d.length % 4294967296) else []) ++
        i32LE (-1))) ++ [] = _
  rw [i32LE_neg_one]

theorem payloads_single (d : List Nat) :
    (LList.empty.AddNode d).payloads = [d] := by
  rw [addNode_empty]
  rfl

/-- A single-node list whose payload is 2^32 zero bytes: the encoder's
`size_t → uint32_t` cast truncates its length field to 0 and writes no
payload bytes. -/
def cexList1 : LList := LList.empty.AddNode (List.replicate 4294967296 0)

/-- A single-node list whose payload is 2^32 + 1 one-bytes: the encoder
writes a length field of 1 and a single payload byte. -/
def cexList2 : LList := LList.empty.AddNode (List.replicate 4294967297 1)

theorem cexList1_serialize :
    cexList1.Serialize = [1, 0, 0, 0, 0, 0, 0, 0, 255, 255, 255, 255] := by
  rw [cexList1, serialize_single, List.length_replicate]
  norm_num [u32LE]

theorem cexList2_serialize :
    cexList2.Serialize = [1, 0, 0, 0, 1, 0, 0, 0, 1, 255, 255, 255, 255] := by
  rw [cexList2, serialize_single, List.length_replicate]
  have hm : 4294967297 % 4294967296 = 1 := by norm_num
  rw [hm]
  have ht : (List.replicate 4294967297 1).take 1 = [1] := by
    rw [List.take_replicate]
    norm_num
  norm_num [u32LE, ht]

theorem specEncoding_single_length (d : List Nat) :
    (specEncoding (LList.empty.AddNode d)).length = 12 + d.length := by
  rw [addNode_empty, specEncoding]
  have htr : ({ nodes := [{ data := d }], head := some 0, tail := some 0, count := 1 } : LList).traversal = [0] := rfl
  rw [htr]
  have hnd : ({ nodes := [{ data := d }], head := some 0, tail := some 0, count := 1 } : LList).nodeAt 0 = { data := d } := rfl
  simp [hnd, u32LE, i32LE]
  omega

/-- `nodeAt` of a successfully decoded list, for positions below the count. -/
theorem deserialize_nodeAt (s : LList) {input r1 rest : List Nat} {cnt : Nat}
    {recs : List (List Nat × Int)}
    (h1 : LList.readUint32 input = some (cnt, r1))
    (h2 : readRecords cnt r1 = some (recs, rest)) {k : Nat} (hk : k < cnt) :
    ((s.Deserialize input).1).nodeAt k =
      { prev := if k = 0 then none else some (k - 1),
        next := if k + 1 = cnt then none else some (k + 1),
        rand := if 0 ≤ (recs.getD k ([], -1)).2 ∧
                    ((recs.getD k ([], -1)).2).toNat < cnt
                then some ((recs.getD k ([], -1)).2).toNat else none,
        data := (recs.getD k ([], -1)).1 } := by
  rw [deserialize_success s h1 h2]
  show ((List.range cnt).map _).getD k _ = _
  rw [getD_map_range _ _ _ _ hk]

instance (s : LList) : Decidable s.INV := by
  unfold LList.INV
  infer_instance

instance (s : LList) : Decidable s.dataBounded := by
  unfold LList.dataBounded
  infer_instance

instance (s : LList) : Decidable s.distinctData := by
  unfold LList.distinctData
  infer_instance

/-! ## Example lists used by the claim witnesses -/

/-- Two nodes with a cross assignment, built through the public interface. -/
def exList : LList := ((LList.empty.AddNode [5]).AddNode [7]).SetRand 0 1

/-- Two nodes, one with an empty payload. -/
def exList2 : LList := (LList.empty.AddNode [3]).AddNode []

/-- A single-node list. -/
def exList4 : LList := (LList.empty.AddNode [1]).AddNode [2]

/-- A one-node list for the append witness. -/
def exList6 : LList := LList.empty.AddNode [9]

/-- A list produced by decoding a one-record stream with a self cross index. -/
def exList7 : LList :=
  ((LList.empty.AddNode [8]).Deserialize
    [1, 0, 0, 0, 2, 0, 0, 0, 10, 20, 0, 0, 0, 0]).1

/-- A one-node list for the failed-decode witness. -/
def exList9 : LList := LList.empty.AddNode [6]

/-- A two-record stream: payload `[65]` with stored cross index 5 (out of
range for two records), then an empty payload with stored index `-1`. -/
def exStream3 : List Nat :=
  [2, 0, 0, 0, 1, 0, 0, 0, 65, 5, 0, 0, 0, 0, 0, 0, 0, 255, 255, 255, 255]

/-- `exStream3` after its count field. -/
def exTail3 : List Nat :=
  [1, 0, 0, 0, 65, 5, 0, 0, 0, 0, 0, 0, 0, 255, 255, 255, 255]

/-- The records of `exStream3`. -/
def exRecs3 : List (List Nat × Int) := [([65], 5), ([], -1)]

/-! ## The claims -/

/-- C5.  Empty-list round trip: encoding an empty list and then decoding the
resulting bytes succeeds and yields a list with count 0 and both head and
tail absent. -/
theorem empty_roundtrip (t : LList) :
    (t.Deserialize LList.empty.Serialize).2 = true ∧
    (t.Deserialize LList.empty.Serialize).1.GetCount = 0 ∧
    (t.Deserialize LList.empty.Serialize).1.head = none ∧
    (t.Deserialize LList.empty.Serialize).1.tail = none :=
  ⟨rfl, rfl, rfl, rfl⟩

/-- C8.  `Clear` resets the list to the empty state (count 0, head and tail
absent) and is idempotent: clearing twice gives the same state as once. -/
theorem clear_resets_and_idempotent (s : LList) :
    s.Clear.GetCount = 0 ∧ s.Clear.head = none ∧ s.Clear.tail = none ∧
    s.Clear.Clear = s.Clear :=
  ⟨rfl, rfl, rfl, rfl⟩

/-- C10.  Encoding does not modify the list: `Serialize`, threaded through an
explicit fallible sink, returns the receiver state unchanged whether the
write completes (`some`) or fails mid-way (`none`). -/
theorem encode_frame (s : LList) (cap : Nat) : (s.SerializeS cap).1 = s := by
  rw [LList.SerializeS]
  rcases h0 : fwriteB cap [] (u32LE (s.count.emod 4294967296).toNat) with _ | sink0
  · rfl
  · rcases h1 : s.writeLoop s.traversal cap s.traversal sink0 with _ | sink <;>
      simp [h1]

/-- C9.  Decode failure leaves the list empty: whenever `Deserialize` reports
failure (any short read), the resulting list has count 0 and no head or
tail — existing content was cleared up front and `head`/`tail`/`count` are
only assigned after all records were read. -/
theorem decode_failure_empty (s : LList) (input : List Nat)
    (h : (s.Deserialize input).2 = false) :
    (s.Deserialize input).1.GetCount = 0 ∧
    (s.Deserialize input).1.head = none ∧
    (s.Deserialize input).1.tail = none := by
  rw [deserialize_failure s input h]
  exact ⟨rfl, rfl, rfl⟩

theorem decode_failure_empty_witness :
    (exList9.Deserialize [7]).2 = false ∧
    ((exList9.Deserialize [7]).1.GetCount = 0 ∧
     (exList9.Deserialize [7]).1.head = none ∧
     (exList9.Deserialize [7]).1.tail = none) :=
  ⟨by decide, decode_failure_empty exList9 [7] (by decide)⟩

/-- C6.  `AddNode` appends one node holding the given payload at the tail of
the traversal, leaves every earlier position's payload unchanged, and
increments the count by exactly one. -/
theorem append_spec (s : LList) (d : List Nat) (hI : s.INV) :
    (s.AddNode d).payloads = s.payloads ++ [d] ∧
    (s.AddNode d).GetCount = s.GetCount + 1 :=
  ⟨addNode_payloads hI d, addNode_count hI d⟩

theorem append_spec_witness :
    exList6.INV ∧
    ((exList6.AddNode [2, 2]).payloads = exList6.payloads ++ [[2, 2]] ∧
     (exList6.AddNode [2, 2]).GetCount = exList6.GetCount + 1) :=
  ⟨by decide, append_spec exList6 [2, 2] (by decide)⟩

/-- One all-zero serialized record parses as an empty payload with stored
cross index 0. -/
theorem readNode_zeros (rest : List Nat) :
    LList.readNode (List.replicate 8 0 ++ rest) = some (([], 0), rest) := rfl

/-- `n` all-zero records parse as `n` empty-payload records. -/
theorem readRecords_zeros :
    ∀ n : Nat, readRecords n (List.replicate (8 * n) 0) =
      some (List.replicate n ([], (0 : Int)), []) := by
  intro n
  induction n with
  | zero => rfl
  | succ n ih =>
      have hsplit : List.replicate (8 * (n + 1)) 0 =
          List.replicate 8 0 ++ List.replicate (8 * n) 0 := by
        rw [← List.replicate_add]
        congr 1
        ring
      rw [hsplit]
      simp only [readRecords, readNode_zeros, ih]
      rw [List.replicate_succ]

/-- The traversal of a positionally linked arena of `n` nodes is
`0, 1, …, n-1`, for any value of the `count` field. -/
theorem traversal_canonical (g : Nat → Option Nat) (ds : Nat → List Nat)
    (n : Nat) (c : Int) :
    ({ nodes := (List.range n).map (fun i =>
        { prev := if i = 0 then none else some (i - 1),
          next := if i + 1 = n then none else some (i + 1),
          rand := g i, data := ds i }),
       head := if n > 0 then some 0 else none,
       tail := if n > 0 then some (n - 1) else none,
       count := c } : LList).traversal = List.range n := by
  have hlen : ((List.range n).map (fun i =>
      ({ prev := if i = 0 then none else some (i - 1),
         next := if i + 1 = n then none else some (i + 1),
         rand := g i, data := ds i } : ListNode))).length = n := by
    simp
  refine (traversal_eq_range_aux ?_ ?_).trans (congrArg List.range hlen)
  · show (if n > 0 then some 0 else none) = _
    rw [hlen]
    by_cases h0 : n = 0 <;> simp [h0]
  · intro k hk
    rw [hlen] at hk
    have hAt : ∀ (st : LList),
        st.nodes = (List.range n).map (fun i =>
          ({ prev := if i = 0 then none else some (i - 1),
             next := if i + 1 = n then none else some (i + 1),
             rand := g i, data := ds i } : ListNode)) →
        st.nodeAt k = ({ prev := if k = 0 then none else some (k - 1),
                         next := if k + 1 = n then none else some (k + 1),
                         rand := g k, data := ds k } : ListNode) := by
      intro st hst
      rw [LList.nodeAt, hst, getD_map_range _ _ _ _ hk]
    rw [hAt _ rfl, hlen]

/-- A stream whose count field declares `2^31` records, followed by exactly
`2^31` all-zero records (an empty payload and cross index 0 each). -/
def cexStream7 : List Nat :=
  [0, 0, 0, 128] ++ List.replicate (8 * 2147483648) 0

/-- C7 (counterexample).  Chain consistency as stated fails at a reachable
state: decoding a fully parsing stream that declares `2^31` records yields a
chain of `2^31` nodes, but `count = static_cast<int>(newCount)` wraps the
32-bit count to `-2^31`, so the stored count differs from the chain
length. -/
theorem chain_consistency_cex :
    Reachable (LList.empty.Deserialize cexStream7).1 ∧
    (LList.empty.Deserialize cexStream7).1.GetCount ≠
      (((LList.empty.Deserialize cexStream7).1.traversal.length : Nat) : Int) := by
  have h1 : LList.readUint32 cexStream7 =
      some (2147483648, List.replicate (8 * 2147483648) 0) := rfl
  have h2 := readRecords_zeros 2147483648
  have hstate := deserialize_success_fst LList.empty h1 h2
  refine ⟨Reachable.deserialize cexStream7 Reachable.empty, ?_⟩
  have hc : (LList.empty.Deserialize cexStream7).1.GetCount =
      i32ofU32 2147483648 := by
    rw [hstate]
    rfl
  have ht : (LList.empty.Deserialize cexStream7).1.traversal =
      List.range 2147483648 := by
    rw [hstate]
    exact traversal_canonical _ _ _ _
  rw [hc, ht, List.length_range]
  have hv : i32ofU32 2147483648 = -2147483648 := by
    rw [i32ofU32]
    norm_num
  rw [hv]
  norm_num

/-- C7 (amended).  Chain consistency: in every state reachable through the
public operations in which every decode read a count field below `2^31`
(where the source's `uint32 → int` count assignment is value-preserving),
the chain obtained by following `next` from `head` visits each node exactly
once, ends at `tail`, falls off the end (no cycle), and its length is
exactly the stored count. -/
theorem chain_consistency_amended (s : LList) (h : ReachableB s) :
    s.traversal.Nodup ∧
    s.traversal.getLast? = s.tail ∧
    (s.traversal = [] → s.head = none ∧ s.tail = none) ∧
    s.walk s.head s.traversal.length = none ∧
    s.GetCount = (s.traversal.length : Int) := by
  have hI := ReachableB_INV h
  rw [traversal_eq_range hI]
  refine ⟨List.nodup_range _, ?_, ?_, ?_, ?_⟩
  · rw [range_getLast?, hI.tail_eq]
  · intro he
    have h0 : s.nodes.length = 0 := by simpa using congrArg List.length he
    rw [hI.head_eq, hI.tail_eq, h0]
    exact ⟨rfl, rfl⟩
  · rw [List.length_range]
    exact walk_off_end hI
  · rw [List.length_range]
    exact hI.count_eq

theorem chain_consistency_amended_witness :
    ReachableB exList7 ∧
    (exList7.traversal.Nodup ∧
     exList7.traversal.getLast? = exList7.tail ∧
     (exList7.traversal = [] → exList7.head = none ∧ exList7.tail = none) ∧
     exList7.walk exList7.head exList7.traversal.length = none ∧
     exList7.GetCount = (exList7.traversal.length : Int)) := by
  have hb : ∀ cnt r1, LList.readUint32
      [1, 0, 0, 0, 2, 0, 0, 0, 10, 20, 0, 0, 0, 0] = some (cnt, r1) →
      cnt < 2147483648 := by
    intro cnt r1 hh
    have hv : LList.readUint32 [1, 0, 0, 0, 2, 0, 0, 0, 10, 20, 0, 0, 0, 0] =
        some (1, [2, 0, 0, 0, 10, 20, 0, 0, 0, 0]) := rfl
    rw [hv] at hh
    have : cnt = 1 := by
      have := congrArg (fun o => (o.getD (0, [])).1) hh
      simpa using this.symm
    omega
  have hR : ReachableB exList7 :=
    ReachableB.deserialize _ (ReachableB.addNode [8] ReachableB.empty) hb
  exact ⟨hR, chain_consistency_amended exList7 hR⟩

/-- C1 (counterexample).  The round-trip property as stated fails for a list
built by a single append whose payload is 2^32 bytes long: the encoder's
`size_t → uint32_t` cast stores length 0 and writes no payload bytes, so the
decoded list carries an empty payload at position 0. -/
theorem roundtrip_cex :
    Built cexList1 ∧ cexList1.distinctData ∧
    (LList.empty.Deserialize cexList1.Serialize).1.payloads ≠
      cexList1.payloads := by
  refine ⟨Built.addNode _ Built.empty, ?_, ?_⟩
  · show ((LList.empty.AddNode (List.replicate 4294967296 0)).nodes.map
      ListNode.data).Nodup
    rw [addNode_empty]
    exact List.nodup_singleton _
  · rw [cexList1_serialize]
    have hdec : (LList.empty.Deserialize
        [1, 0, 0, 0, 0, 0, 0, 0, 255, 255, 255, 255]).1.payloads = [[]] := by
      decide
    rw [hdec, cexList1, payloads_single]
    intro h
    have h2 : ([] : List Nat) = List.replicate 4294967296 0 :=
      List.cons.injEq .. |>.mp h |>.1
    have h3 := congrArg List.length h2
    rw [List.length_replicate, List.length_nil] at h3
    exact absurd h3 (by norm_num)

/-- C1 (amended).  Round trip for every list built by appends and in-range
cross assignments with distinct payload strings, fewer than 2^31 nodes and
every payload shorter than 2^32 bytes: decoding the encoded stream succeeds
and yields a list with the same count, the same payload at every traversal
position, cross absent exactly where it was absent, and otherwise pointing
to a node carrying the payload of the original cross target. -/
theorem roundtrip_amended (L t : LList) (hB : Built L) (_hd : L.distinctData)
    (hn : L.nodes.length < 2147483648) (hp : L.dataBounded) :
    (t.Deserialize L.Serialize).2 = true ∧
    (t.Deserialize L.Serialize).1.GetCount = L.GetCount ∧
    (t.Deserialize L.Serialize).1.payloads = L.payloads ∧
    ∀ i, i < L.nodes.length →
      (((t.Deserialize L.Serialize).1.nodeAt i).rand = none ↔
        (L.nodeAt i).rand = none) ∧
      ∀ r, (L.nodeAt i).rand = some r →
        ∃ j, ((t.Deserialize L.Serialize).1.nodeAt i).rand = some j ∧
          ((t.Deserialize L.Serialize).1.nodeAt j).data = (L.nodeAt r).data := by
  have hI := Built_INV hB
  have heq := roundtrip_eq hI hp hn t
  rw [heq]
  refine ⟨rfl, rfl, rfl, ?_⟩
  intro i _
  refine ⟨Iff.rfl, ?_⟩
  intro r hr
  exact ⟨r, hr, rfl⟩

theorem roundtrip_amended_witness :
    Built exList ∧ exList.distinctData ∧ exList.nodes.length < 2147483648 ∧
    exList.dataBounded ∧
    (LList.empty.Deserialize exList.Serialize).1.payloads = exList.payloads := by
  have hB : Built exList :=
    Built.setRand 0 1 (Built.addNode [7] (Built.addNode [5] Built.empty))
      (by decide) (by decide) (by decide) (by decide)
  exact ⟨hB, by decide, by decide, by decide,
    (roundtrip_amended exList LList.empty hB (by decide) (by decide)
      (by decide)).2.2.1⟩

/-- C2 (counterexample).  The encoder-format claim as stated fails for a
single-node list whose payload is 2^32 + 1 bytes: the stream carries a
length field of 1 and one payload byte instead of the raw payload bytes. -/
theorem encoder_format_cex :
    Built cexList2 ∧ cexList2.Serialize ≠ specEncoding cexList2 := by
  refine ⟨Built.addNode _ Built.empty, ?_⟩
  intro h
  have hlen := congrArg List.length h
  rw [cexList2_serialize, cexList2, specEncoding_single_length,
      List.length_replicate] at hlen
  simp at hlen

/-- C2 (amended).  For every well-formed list whose payloads are each shorter
than 2^32 bytes, the encoder writes exactly the spec's format: the node count
as an unsigned 32-bit integer, then per node in traversal order an unsigned
32-bit payload length, the raw payload bytes, and a signed 32-bit
cross-reference index (traversal index of the target, `-1` when absent) —
and nothing else. -/
theorem encoder_format_amended (s : LList) (hI : s.INV) (hD : s.dataBounded) :
    s.Serialize = specEncoding s :=
  Serialize_eq_specEncoding hI hD

theorem encoder_format_amended_witness :
    exList2.INV ∧ exList2.dataBounded ∧
    exList2.Serialize = specEncoding exList2 :=
  ⟨by decide, by decide, encoder_format_amended exList2 (by decide) (by decide)⟩

/-- C3.  Decoder cross-reference resolution is lenient: whenever the count
and all records are read successfully, the decode succeeds (no stored index
value can fail it), every node whose stored index lies in `[0, n)` gets its
`rand` set to the node at that index, and every node whose stored index is
`-1` or otherwise out of range gets `rand` set to absent. -/
theorem decoder_rand_leniency (s : LList) (input r1 rest : List Nat)
    (cnt : Nat) (recs : List (List Nat × Int))
    (h1 : LList.readUint32 input = some (cnt, r1))
    (h2 : readRecords cnt r1 = some (recs, rest)) :
    (s.Deserialize input).2 = true ∧
    ∀ i, i < cnt →
      (0 ≤ (recs.getD i ([], -1)).2 → (recs.getD i ([], -1)).2 < (cnt : Int) →
        ((s.Deserialize input).1.nodeAt i).rand =
          some ((recs.getD i ([], -1)).2).toNat) ∧
      ((recs.getD i ([], -1)).2 < 0 ∨ (cnt : Int) ≤ (recs.getD i ([], -1)).2 →
        ((s.Deserialize input).1.nodeAt i).rand = none) := by
  constructor
  · rw [deserialize_success s h1 h2]
  · intro i hi
    rw [deserialize_nodeAt s h1 h2 hi]
    constructor
    · intro hge hlt
      show (if 0 ≤ (recs.getD i ([], -1)).2 ∧
          ((recs.getD i ([], -1)).2).toNat < cnt
        then some ((recs.getD i ([], -1)).2).toNat else none) = _
      rw [if_pos ⟨hge, by omega⟩]
    · intro hor
      show (if 0 ≤ (recs.getD i ([], -1)).2 ∧
          ((recs.getD i ([], -1)).2).toNat < cnt
        then some ((recs.getD i ([], -1)).2).toNat else none) = _
      rw [if_neg ?_]
      rintro ⟨hge, hlt⟩
      rcases hor with hneg | hbig
      · omega
      · omega

theorem decoder_rand_leniency_witness :
    LList.readUint32 exStream3 = some (2, exTail3) ∧
    readRecords 2 exTail3 = some (exRecs3, []) ∧
    ((LList.empty.Deserialize exStream3).2 = true ∧
     ∀ i, i < 2 →
      (0 ≤ (exRecs3.getD i ([], -1)).2 →
        (exRecs3.getD i ([], -1)).2 < ((2 : Nat) : Int) →
        ((LList.empty.Deserialize exStream3).1.nodeAt i).rand =
          some ((exRecs3.getD i ([], -1)).2).toNat) ∧
      ((exRecs3.getD i ([], -1)).2 < 0 ∨
          ((2 : Nat) : Int) ≤ (exRecs3.getD i ([], -1)).2 →
        ((LList.empty.Deserialize exStream3).1.nodeAt i).rand = none)) :=
  ⟨by decide, by decide,
   decoder_rand_leniency LList.empty exStream3 exTail3 [] 2 exRecs3
     (by decide) (by decide)⟩

/-- C4.  `SetRand` with any index outside `[0, count)` leaves the entire list
unchanged; with both indices in range it sets node `i`'s cross-reference to
the node at traversal position `j` and changes nothing else. -/
theorem setCross_contract (s : LList) (i j : Int) (hI : s.INV) :
    ((i < 0 ∨ i ≥ s.count ∨ j < 0 ∨ j ≥ s.count) → s.SetRand i j = s) ∧
    (0 ≤ i → i < s.count → 0 ≤ j → j < s.count →
      ((s.SetRand i j).nodeAt i.toNat).rand = some j.toNat ∧
      ((s.SetRand i j).nodeAt i.toNat).prev = (s.nodeAt i.toNat).prev ∧
      ((s.SetRand i j).nodeAt i.toNat).next = (s.nodeAt i.toNat).next ∧
      ((s.SetRand i j).nodeAt i.toNat).data = (s.nodeAt i.toNat).data ∧
      (∀ k, k ≠ i.toNat → (s.SetRand i j).nodeAt k = s.nodeAt k) ∧
      (s.SetRand i j).head = s.head ∧ (s.SetRand i j).tail = s.tail ∧
      (s.SetRand i j).count = s.count) := by
  constructor
  · exact setRand_out_of_range s i j
  · intro hi0 hic hj0 hjc
    have hred := setRand_in_range hI hi0 hic hj0 hjc
    have hin : i.toNat < s.nodes.length := by
      rw [hI.count_eq] at hic; omega
    have hself : (s.SetRand i j).nodeAt i.toNat =
        { s.nodeAt i.toNat with rand := some j.toNat } := by
      have hstep : (s.SetRand i j).nodeAt i.toNat =
          (setNode s.nodes i.toNat
            (fun nd => { nd with rand := some j.toNat })).getD i.toNat {} := by
        rw [hred]
        rfl
      rw [hstep, setNode, getD_set_self _ _ _ _ hin]
      rfl
    have hother : ∀ k, k ≠ i.toNat → (s.SetRand i j).nodeAt k = s.nodeAt k := by
      intro k hk
      have hstep : (s.SetRand i j).nodeAt k =
          (setNode s.nodes i.toNat
            (fun nd => { nd with rand := some j.toNat })).getD k {} := by
        rw [hred]
        rfl
      rw [hstep, setNode, getD_set_ne _ _ _ _ _ (fun e => hk e.symm)]
      rfl
    refine ⟨by rw [hself], by rw [hself], by rw [hself], by rw [hself],
            hother, by rw [hred], by rw [hred], by rw [hred]⟩

theorem setCross_contract_witness :
    exList4.INV ∧
    (((1 : Int) < 0 ∨ (1 : Int) ≥ exList4.count ∨ (0 : Int) < 0 ∨
        (0 : Int) ≥ exList4.count → exList4.SetRand 1 0 = exList4) ∧
     (0 ≤ (1 : Int) → (1 : Int) < exList4.count → 0 ≤ (0 : Int) →
        (0 : Int) < exList4.count →
      ((exList4.SetRand 1 0).nodeAt (1 : Int).toNat).rand =
          some (0 : Int).toNat ∧
      ((exList4.SetRand 1 0).nodeAt (1 : Int).toNat).prev =
          (exList4.nodeAt (1 : Int).toNat).prev ∧
      ((exList4.SetRand 1 0).nodeAt (1 : Int).toNat).next =
          (exList4.nodeAt (1 : Int).toNat).next ∧
      ((exList4.SetRand 1 0).nodeAt (1 : Int).toNat).data =
          (exList4.nodeAt (1 : Int).toNat).data ∧
      (∀ k, k ≠ (1 : Int).toNat →
          (exList4.SetRand 1 0).nodeAt k = exList4.nodeAt k) ∧
      (exList4.SetRand 1 0).head = exList4.head ∧
      (exList4.SetRand 1 0).tail = exList4.tail ∧
      (exList4.SetRand 1 0).count = exList4.count)) :=
  ⟨by decide, setCross_contract exList4 1 0 (by decide)⟩
